import Mathlib

/-!
# Verification of `validator_app.py` (Spanish text validator)

Shallow embedding of the validator and highlighter of `src/validator_app.py`.
Text is modelled as `List Char`; Python's `\w` word characters are modelled
by the ASCII classes (letters, digits, underscore), and `str.lower()` by
`Char.toLower` applied characterwise.  The external spaCy tagger
(`self.nlp`) is a black box: it is a parameter producing tagged tokens,
each carrying its surface text, its part-of-speech tag and its
numeral-likeness flag, exactly the three attributes the validator reads.
-/

namespace ValidatorApp

/-- A word character of the tokenizing pattern `\b\w+\b`: an (ASCII)
letter, a digit or an underscore. -/
def isWordChar (c : Char) : Bool :=
  c.isAlphanum || c == '_'

/-- Python's `str.lower()`: lowercase each character. -/
def lowerStr (s : List Char) : List Char :=
  s.map Char.toLower

/-- One token of the tagger's document: its surface text (`token.text`),
its part-of-speech tag (`token.pos_`) and its numeral flag (`token.like_num`). -/
structure TaggedToken where
  text : List Char
  pos : String
  like_num : Bool
deriving DecidableEq, Repr

/-- Line 19: `{token.text.lower() for token in doc if token.pos_ == "PROPN"}`. -/
def properNounsOf (doc : List TaggedToken) : List (List Char) :=
  (doc.filter (fun t => t.pos == "PROPN")).map (fun t => lowerStr t.text)

/-- Line 20: `{token.text.lower() for token in doc if token.like_num}`. -/
def numbersOf (doc : List TaggedToken) : List (List Char) :=
  (doc.filter (fun t => t.like_num)).map (fun t => lowerStr t.text)

/-- Line 23: `re.findall(r'\b\w+\b', s)`, the maximal runs of word
characters of `s` (the validator applies it to the lowercased text). -/
def tokens (s : List Char) : List (List Char) :=
  match s with
  | [] => []
  | c :: cs =>
    if isWordChar c then
      ((c :: cs).takeWhile isWordChar) :: tokens ((c :: cs).dropWhile isWordChar)
    else
      tokens cs
termination_by s.length
decreasing_by
  · simp only [List.dropWhile]
    rename_i h
    simp only [h, if_true]
    exact Nat.lt_succ_of_le (List.Sublist.length_le (List.dropWhile_sublist isWordChar))
  · exact Nat.lt_succ_self _

/-- Lines 26-29: the tokens of the lowercased text that are in none of the
vocabulary, the proper-noun set and the number set (with repetitions). -/
def nonCompliantWords (doc : List TaggedToken) (text : List Char)
    (vocabulary : List (List Char)) : List (List Char) :=
  (tokens (lowerStr text)).filter fun word =>
    !(vocabulary.contains word) && !((properNounsOf doc).contains word)
      && !((numbersOf doc).contains word)

/-- The distinct elements of `l` that are not in `seen`, in first-seen
order (the key order of a Python `Counter`, which is dict insertion order). -/
def firstSeenAux (seen : List (List Char)) : List (List Char) → List (List Char)
  | [] => []
  | w :: l =>
    if w ∈ seen then firstSeenAux seen l
    else w :: firstSeenAux (w :: seen) l

/-- Line 32: `Counter(non_compliant_words)` as an association list in key
insertion order, each key with its number of occurrences. -/
def counter (ws : List (List Char)) : List (List Char × Nat) :=
  (firstSeenAux [] ws).map fun w => (w, ws.count w)

/-- The dictionary returned by `validate_text` (lines 34-37). -/
structure ValidationResult where
  compliant : Bool
  errors : List (List Char × Nat)
deriving DecidableEq, Repr

/-- Lines 14-37, `SpanishValidator.validate_text`: run the tagger, build
the lowercase proper-noun and number sets, tokenize the lowercased text,
keep the words in none of the three sets, and return the compliance flag
with the per-word error counts.  `nlp` is the tagging model. -/
def validate_text (nlp : List Char → List TaggedToken) (text : List Char)
    (vocabulary : List (List Char)) : ValidationResult :=
  let doc := nlp text
  let non_compliant_words := nonCompliantWords doc text vocabulary
  { compliant := non_compliant_words.length == 0
    errors := counter non_compliant_words }

/-- The keys of the errors mapping. -/
def errorKeys (r : ValidationResult) : List (List Char) :=
  r.errors.map Prod.fst

/-- The opening markup of line 52, `<span style="color: red">`. -/
def spanOpen : List Char :=
  "<span style=\"color: red\">".data

/-- The closing markup of line 52, `</span>`. -/
def spanClose : List Char :=
  "</span>".data

/-- Lines 45-59 of `format_text_with_highlights`: scan the text; each
maximal word-character run whose lowercase form is in `ewl` is wrapped in
the span markup, every other word run and every character between runs is
copied through unchanged.  `ewl` is the already-lowercased error-word set. -/
def hlScan (ewl : List (List Char)) (s : List Char) : List Char :=
  match s with
  | [] => []
  | c :: cs =>
    if isWordChar c then
      (if ewl.contains (lowerStr ((c :: cs).takeWhile isWordChar)) then
        spanOpen ++ ((c :: cs).takeWhile isWordChar) ++ spanClose
      else
        ((c :: cs).takeWhile isWordChar))
        ++ hlScan ewl ((c :: cs).dropWhile isWordChar)
    else
      c :: hlScan ewl cs
termination_by s.length
decreasing_by
  · simp only [List.dropWhile]
    rename_i h
    simp only [h, if_true]
    exact Nat.lt_succ_of_le (List.Sublist.length_le (List.dropWhile_sublist isWordChar))
  · exact Nat.lt_succ_self _

/-- Lines 39-60, `format_text_with_highlights`: lowercase the error-word
set (line 41) and rebuild the text with flagged tokens wrapped. -/
def format_text_with_highlights (text : List Char) (error_words : List (List Char)) :
    List Char :=
  hlScan (error_words.map lowerStr) text

/-! ## Spec-side characterization of the highlighter

The spec describes the highlighter through the decomposition of the text
into word tokens and the non-token text between them: every chunk is
re-emitted verbatim and in order, except the flagged word chunks, which are
wrapped in markup.  `chunksOf` is that decomposition and `renderChunk` the
per-chunk re-emission; `highlightSpec` is their composition, to be compared
with `format_text_with_highlights` above. -/

/-- A piece of the text: a maximal word-character run, or one character of
the text between runs. -/
inductive Chunk where
  | word (w : List Char)
  | sep (c : Char)
deriving DecidableEq, Repr

/-- The text a chunk stands for. -/
def Chunk.content : Chunk → List Char
  | .word w => w
  | .sep c => [c]

/-- The decomposition of a text into maximal word-character runs and the
single non-word characters between them. -/
def chunksOf (s : List Char) : List Chunk :=
  match s with
  | [] => []
  | c :: cs =>
    if isWordChar c then
      Chunk.word ((c :: cs).takeWhile isWordChar) :: chunksOf ((c :: cs).dropWhile isWordChar)
    else
      Chunk.sep c :: chunksOf cs
termination_by s.length
decreasing_by
  · simp only [List.dropWhile]
    rename_i h
    simp only [h, if_true]
    exact Nat.lt_succ_of_le (List.Sublist.length_le (List.dropWhile_sublist isWordChar))
  · exact Nat.lt_succ_self _

/-- Modelled from the spec: how one chunk is re-emitted — a word whose
lowercase form is a flagged word (case-insensitively) is wrapped in the
highlight markup, everything else is copied through verbatim. -/
def renderChunk (flagged : List (List Char)) : Chunk → List Char
  | .word w =>
    if (flagged.map lowerStr).contains (lowerStr w) then spanOpen ++ w ++ spanClose
    else w
  | .sep c => [c]

/-- Modelled from the spec: the highlighter as the spec words it — decompose
the text into chunks, re-emit each in order, flagged words wrapped. -/
def highlightSpec (text : List Char) (flagged : List (List Char)) : List Char :=
  ((chunksOf text).map (renderChunk flagged)).flatten

/-! ## The application's validate-button guards (lines 100-107 of `main`) -/

/-- What one click of the Validate button does: which warning is shown, or
the validation result that is produced. -/
inductive AppAction where
  | warnNoVocab
  | warnNoText
  | validated (result : ValidationResult)
deriving DecidableEq, Repr

/-- Python's `str.strip()`: drop whitespace from both ends. -/
def pyStrip (s : List Char) : List Char :=
  ((s.dropWhile Char.isWhitespace).reverse.dropWhile Char.isWhitespace).reverse

/-- Lines 100-107 of `main`: on click, an empty vocabulary warns and skips
validation; otherwise, text that strips to nothing warns and skips
validation; otherwise `validate_text` runs. -/
def onValidateClick (nlp : List Char → List TaggedToken) (vocabulary : List (List Char))
    (text_input : List Char) : AppAction :=
  if vocabulary.isEmpty then .warnNoVocab
  else if (pyStrip text_input).isEmpty then .warnNoText
  else .validated (validate_text nlp text_input vocabulary)

/-! ## The tagger, modelled from the spec

The tagging model `es_core_news_sm` is an external dependency, not code of
this repository; claims about its classifications are settled against the
spec's description of it. -/

/-- Modelled from the spec: the glossary's "numeral-like token: a token
classified as representing a number, whether digit-form or spelled out" and
§4.1's "numeral-like, which includes digit sequences" — a tagger flags
digit tokens when every purely numeric token of the text reappears, flagged
numeral-like, in its lowercase number set. -/
def TaggerFlagsDigitTokens (nlp : List Char → List TaggedToken) : Prop :=
  ∀ text w, w ∈ tokens (lowerStr text) → (∀ c ∈ w, c.isDigit) →
    w ∈ numbersOf (nlp text)

/-- A minimal tagger satisfying the spec's description of numeral
classification: its tokens are the word-character runs of the lowercased
text, and a token is numeral-like exactly when it is all digits. -/
def digitTagger : List Char → List TaggedToken := fun text =>
  (tokens (lowerStr text)).map fun w => ⟨w, "X", w.all Char.isDigit⟩

/-! ## Character-level facts about `Char.toLower` and `isWordChar` -/

/-- Characters with equal code points are equal. -/
theorem char_toNat_inj {c d : Char} (h : c.toNat = d.toNat) : c = d :=
  Char.ext (UInt32.ext h)

/-- The code point of `Char.toLower`: `A`-`Z` shift by 32, all else is kept. -/
theorem char_toNat_toLower (c : Char) :
    (Char.toLower c).toNat = if 65 ≤ c.toNat ∧ c.toNat ≤ 90 then c.toNat + 32 else c.toNat := by
  rw [Char.toLower]
  split
  · rename_i h
    rw [Char.ofNat, dif_pos (Or.inl (by omega))]
    rfl
  · rfl

/-- `isWordChar` through code points: an ASCII letter, digit or underscore. -/
theorem char_isWordChar_toNat (c : Char) :
    isWordChar c = true ↔
      (65 ≤ c.toNat ∧ c.toNat ≤ 90) ∨ (97 ≤ c.toNat ∧ c.toNat ≤ 122) ∨
        (48 ≤ c.toNat ∧ c.toNat ≤ 57) ∨ c.toNat = 95 := by
  simp only [isWordChar, Char.isAlphanum, Char.isAlpha, Char.isUpper, Char.isLower,
    Char.isDigit, Bool.or_eq_true, Bool.and_eq_true, decide_eq_true_eq, beq_iff_eq]
  constructor
  · rintro (((⟨h1, h2⟩ | ⟨h1, h2⟩) | ⟨h1, h2⟩) | rfl)
    · exact Or.inl ⟨h1, h2⟩
    · exact Or.inr (Or.inl ⟨h1, h2⟩)
    · exact Or.inr (Or.inr (Or.inl ⟨h1, h2⟩))
    · exact Or.inr (Or.inr (Or.inr rfl))
  · rintro (⟨h1, h2⟩ | ⟨h1, h2⟩ | ⟨h1, h2⟩ | h)
    · exact Or.inl (Or.inl (Or.inl ⟨h1, h2⟩))
    · exact Or.inl (Or.inl (Or.inr ⟨h1, h2⟩))
    · exact Or.inl (Or.inr ⟨h1, h2⟩)
    · exact Or.inr (char_toNat_inj h)

/-- Lowercasing does not change whether a character is a word character. -/
theorem char_isWordChar_toLower (c : Char) : isWordChar (Char.toLower c) = isWordChar c := by
  rw [Bool.eq_iff_iff, char_isWordChar_toNat, char_isWordChar_toNat, char_toNat_toLower]
  split
  · omega
  · omega

/-- `Char.toLower` is idempotent. -/
theorem char_toLower_toLower (c : Char) :
    Char.toLower (Char.toLower c) = Char.toLower c := by
  apply char_toNat_inj
  rw [char_toNat_toLower (Char.toLower c), char_toNat_toLower c]
  split
  · split <;> omega
  · rfl

/-- Lowercasing a string twice is lowercasing it once. -/
theorem lowerStr_lowerStr (s : List Char) : lowerStr (lowerStr s) = lowerStr s := by
  simp only [lowerStr, List.map_map]
  exact List.map_congr_left fun c _ => char_toLower_toLower c

/-- Every character of a lowercased string is fixed by `Char.toLower`. -/
theorem char_toLower_of_mem_lowerStr {c : Char} {s : List Char} (h : c ∈ lowerStr s) :
    Char.toLower c = c := by
  simp only [lowerStr, List.mem_map] at h
  obtain ⟨d, _, rfl⟩ := h
  exact char_toLower_toLower d

/-- Digits are fixed by `Char.toLower`. -/
theorem char_toLower_of_isDigit {c : Char} (h : c.isDigit = true) : Char.toLower c = c := by
  apply char_toNat_inj
  rw [char_toNat_toLower]
  simp only [Char.isDigit, Bool.and_eq_true, decide_eq_true_eq] at h
  obtain ⟨h1, h2⟩ := h
  have h1' : 48 ≤ c.toNat := h1
  have h2' : c.toNat ≤ 57 := h2
  rw [if_neg (by omega)]

/-- A purely numeric word is fixed by lowercasing. -/
theorem lowerStr_of_digits {w : List Char} (h : ∀ c ∈ w, c.isDigit = true) :
    lowerStr w = w := by
  have hfix : ∀ c ∈ w, Char.toLower c = id c := fun c hc => char_toLower_of_isDigit (h c hc)
  exact (List.map_congr_left hfix).trans (List.map_id w)

/-! ## Facts about the tokenizer -/

/-- Every character of a token of `s` is a character of `s`. -/
theorem mem_of_mem_tokens {w s : List Char} (hw : w ∈ tokens s) : ∀ c ∈ w, c ∈ s := by
  induction s using tokens.induct with
  | case1 => simp [tokens] at hw
  | case2 c cs h ih =>
      rw [tokens, if_pos h] at hw
      rcases List.mem_cons.mp hw with rfl | hw
      · exact fun d hd => List.takeWhile_subset isWordChar hd
      · exact fun d hd => List.dropWhile_subset isWordChar (ih hw d hd)
  | case3 c cs h ih =>
      rw [tokens, if_neg h] at hw
      exact fun d hd => List.mem_cons_of_mem c (ih hw d hd)

/-- Tokens are never empty. -/
theorem ne_nil_of_mem_tokens {w s : List Char} (hw : w ∈ tokens s) : w ≠ [] := by
  induction s using tokens.induct with
  | case1 => simp [tokens] at hw
  | case2 c cs h ih =>
      rw [tokens, if_pos h] at hw
      rcases List.mem_cons.mp hw with rfl | hw
      · simp [List.takeWhile_cons_of_pos h]
      · exact ih hw
  | case3 c cs h ih =>
      rw [tokens, if_neg h] at hw
      exact ih hw

/-- A token of a lowercased text is itself lowercase. -/
theorem lowerStr_eq_self_of_mem_tokens {w s : List Char}
    (hw : w ∈ tokens (lowerStr s)) : lowerStr w = w := by
  have hfix : ∀ c ∈ w, Char.toLower c = id c := fun c hc =>
    char_toLower_of_mem_lowerStr (mem_of_mem_tokens hw c hc)
  exact (List.map_congr_left hfix).trans (List.map_id w)

/-- Tokenizing the lowercased text yields the lowercased tokens of the
text: lowercasing commutes with the word-boundary tokenizer. -/
theorem tokens_lowerStr (s : List Char) :
    tokens (lowerStr s) = (tokens s).map lowerStr := by
  induction s using tokens.induct with
  | case1 => simp [tokens, lowerStr]
  | case2 c cs h ih =>
      have hc : isWordChar (Char.toLower c) = true := (char_isWordChar_toLower c).trans h
      have htw : (List.map Char.toLower (c :: cs)).takeWhile isWordChar
          = ((c :: cs).takeWhile isWordChar).map Char.toLower := by
        rw [List.takeWhile_map, show (isWordChar ∘ Char.toLower) = isWordChar from
          funext char_isWordChar_toLower]
      have hdw : (List.map Char.toLower (c :: cs)).dropWhile isWordChar
          = ((c :: cs).dropWhile isWordChar).map Char.toLower := by
        rw [List.dropWhile_map, show (isWordChar ∘ Char.toLower) = isWordChar from
          funext char_isWordChar_toLower]
      rw [tokens, if_pos h]
      show tokens (lowerStr (c :: cs)) = _
      rw [lowerStr, List.map_cons, tokens, if_pos hc, ← List.map_cons Char.toLower c cs,
        htw, hdw, List.map_cons]
      congr 1
  | case3 c cs h ih =>
      have hc : ¬ isWordChar (Char.toLower c) = true := fun hh =>
        h ((char_isWordChar_toLower c) ▸ hh)
      rw [tokens, if_neg h]
      show tokens (lowerStr (c :: cs)) = _
      rw [lowerStr, List.map_cons, tokens, if_neg hc]
      exact ih

/-! ## Facts about `firstSeenAux`, `counter` and the non-compliant words -/

/-- Membership in the first-seen dedup: in the list and not already seen. -/
theorem mem_firstSeenAux {a : List Char} :
    ∀ {l seen : List (List Char)}, a ∈ firstSeenAux seen l ↔ a ∈ l ∧ a ∉ seen := by
  intro l
  induction l with
  | nil => intro seen; simp [firstSeenAux]
  | cons w l ih =>
      intro seen
      by_cases hw : w ∈ seen
      · rw [firstSeenAux, if_pos hw, ih, List.mem_cons]
        constructor
        · rintro ⟨h1, h2⟩
          exact ⟨Or.inr h1, h2⟩
        · rintro ⟨rfl | h1, h2⟩
          · exact absurd hw h2
          · exact ⟨h1, h2⟩
      · rw [firstSeenAux, if_neg hw, List.mem_cons, List.mem_cons, ih]
        constructor
        · rintro (rfl | ⟨h1, h2⟩)
          · exact ⟨Or.inl rfl, hw⟩
          · refine ⟨Or.inr h1, fun hs => h2 (List.mem_cons_of_mem w hs)⟩
        · rintro ⟨rfl | h1, h2⟩
          · exact Or.inl rfl
          · by_cases haw : a = w
            · exact Or.inl haw
            · exact Or.inr ⟨h1, fun hs => by
                rcases List.mem_cons.mp hs with h | h
                exacts [haw h, h2 h]⟩

/-- The keys of `counter ws` are exactly the elements of `ws`. -/
theorem errorKeys_counter {w : List Char} {ws : List (List Char)} :
    w ∈ (counter ws).map Prod.fst ↔ w ∈ ws := by
  simp only [counter, List.map_map]
  rw [show (Prod.fst ∘ fun w => (w, ws.count w)) = id from rfl, List.map_id]
  rw [mem_firstSeenAux]
  simp

/-- Every entry of `counter ws` pairs an element of `ws` with its
occurrence count in `ws`. -/
theorem mem_counter {p : List Char × Nat} {ws : List (List Char)} (hp : p ∈ counter ws) :
    p.1 ∈ ws ∧ p.2 = ws.count p.1 := by
  simp only [counter, List.mem_map] at hp
  obtain ⟨w, hw, rfl⟩ := hp
  exact ⟨(mem_firstSeenAux.mp hw).1, rfl⟩

/-- Membership in the non-compliant word list: a token of the lowercased
text that is in none of the vocabulary, proper-noun and number sets. -/
theorem mem_nonCompliantWords {doc : List TaggedToken} {text : List Char}
    {V : List (List Char)} {w : List Char} :
    w ∈ nonCompliantWords doc text V ↔
      w ∈ tokens (lowerStr text) ∧ w ∉ V ∧ w ∉ properNounsOf doc ∧ w ∉ numbersOf doc := by
  simp [nonCompliantWords, List.mem_filter, and_assoc]

/-- Modelled from the spec: "produce a frequency count, preserving
first-seen order of distinct words" — the key order of a Python dict:
fold over the occurrences, appending each word the first time it is seen. -/
def firstSeenOrder (ws : List (List Char)) : List (List Char) :=
  ws.foldl (fun acc w => if w ∈ acc then acc else acc ++ [w]) []

/-- The left fold of first-time insertion agrees with `firstSeenAux`
whenever the accumulator holds exactly the seen words. -/
theorem foldl_firstSeenAux :
    ∀ (l acc seen : List (List Char)), (∀ w, w ∈ seen ↔ w ∈ acc) →
      l.foldl (fun acc w => if w ∈ acc then acc else acc ++ [w]) acc
        = acc ++ firstSeenAux seen l := by
  intro l
  induction l with
  | nil => intro acc seen _; simp [firstSeenAux]
  | cons w l ih =>
      intro acc seen hiff
      rw [List.foldl_cons, firstSeenAux]
      by_cases hw : w ∈ seen
      · rw [if_pos hw, if_pos ((hiff w).mp hw)]
        exact ih acc seen hiff
      · rw [if_neg hw, if_neg (fun h => hw ((hiff w).mpr h))]
        rw [ih (acc ++ [w]) (w :: seen) (fun v => by
          rw [List.mem_cons, List.mem_append, List.mem_singleton, hiff v, or_comm])]
        simp

/-- The two renderings of first-seen key order agree. -/
theorem firstSeenOrder_eq (ws : List (List Char)) :
    firstSeenOrder ws = firstSeenAux [] ws := by
  rw [firstSeenOrder, foldl_firstSeenAux ws [] [] (fun w => Iff.rfl), List.nil_append]

/-- Occurrences of a word in the lowercased text's tokens are the
occurrences, in the text's tokens, of any cased variant lowering to it. -/
theorem count_tokens_lowerStr (text : List Char) (k : List Char) :
    (tokens (lowerStr text)).count k = (tokens text).countP (fun t => lowerStr t == k) := by
  rw [tokens_lowerStr, List.count_eq_countP, List.countP_map]
  rfl

/-! ## The claims -/

/-- A word is a key of the errors mapping exactly when it is a token of
the lowercased text lying in none of the three exempting sets. -/
theorem mem_errorKeys_iff
    {nlp : List Char → List TaggedToken} {text : List Char} {vocabulary : List (List Char)}
    {w : List Char} :
    w ∈ errorKeys (validate_text nlp text vocabulary) ↔
      w ∈ tokens (lowerStr text) ∧ w ∉ vocabulary ∧
        w ∉ properNounsOf (nlp text) ∧ w ∉ numbersOf (nlp text) :=
  errorKeys_counter.trans mem_nonCompliantWords

/-- C1: a lowercased regex token is non-compliant, and hence a key of the
errors mapping, exactly when it is in none of the vocabulary, the
lowercased proper-noun set and the lowercased numeral set; the errors
mapping has exactly the non-compliant tokens as keys. -/
theorem validate_text_nonCompliant_iff
    (nlp : List Char → List TaggedToken) (text : List Char) (vocabulary : List (List Char))
    (w : List Char) :
    w ∈ errorKeys (validate_text nlp text vocabulary) ↔
      w ∈ tokens (lowerStr text) ∧ w ∉ vocabulary ∧
        w ∉ properNounsOf (nlp text) ∧ w ∉ numbersOf (nlp text) :=
  mem_errorKeys_iff

/-- C2: the `compliant` field of a validation result is `true` exactly when
its `errors` mapping is empty. -/
theorem validate_text_compliant_iff_errors_empty
    (nlp : List Char → List TaggedToken) (text : List Char) (vocabulary : List (List Char)) :
    (validate_text nlp text vocabulary).compliant = true ↔
      (validate_text nlp text vocabulary).errors = [] := by
  show ((nonCompliantWords (nlp text) text vocabulary).length == 0) = true ↔
    counter (nonCompliantWords (nlp text) text vocabulary) = []
  rcases h : nonCompliantWords (nlp text) text vocabulary with _ | ⟨a, l⟩
  · simp [counter, firstSeenAux]
  · simp [counter, firstSeenAux]

/-- C7: error keys are lowercase forms; each key's count aggregates every
occurrence, across all case variants and repetitions, of tokens of the text
lowering to it; and the keys stand in first-seen order of the tokens. -/
theorem validate_text_counting
    (nlp : List Char → List TaggedToken) (text : List Char) (vocabulary : List (List Char)) :
    errorKeys (validate_text nlp text vocabulary)
        = firstSeenOrder (nonCompliantWords (nlp text) text vocabulary)
      ∧ ∀ p ∈ (validate_text nlp text vocabulary).errors,
          lowerStr p.1 = p.1
            ∧ p.2 = (tokens text).countP (fun t => lowerStr t == p.1) := by
  constructor
  · show (counter (nonCompliantWords (nlp text) text vocabulary)).map Prod.fst = _
    rw [firstSeenOrder_eq, counter, List.map_map]
    rw [show (Prod.fst ∘ fun w => (w, (nonCompliantWords (nlp text) text vocabulary).count w))
      = id from rfl, List.map_id]
  · intro p hp
    have h := mem_counter hp
    have htok := (mem_nonCompliantWords.mp h.1).1
    refine ⟨lowerStr_eq_self_of_mem_tokens htok, ?_⟩
    rw [h.2, ← count_tokens_lowerStr]
    rw [show nonCompliantWords (nlp text) text vocabulary
      = List.filter _ (tokens (lowerStr text)) from rfl]
    rw [List.count_filter]
    exact (List.mem_filter.mp h.1).2

/-- C9: every key of the errors mapping carries a count of at least 1 and
is itself a token of the lowercased text. -/
theorem validate_text_errors_invariant
    (nlp : List Char → List TaggedToken) (text : List Char) (vocabulary : List (List Char))
    (p : List Char × Nat) (hp : p ∈ (validate_text nlp text vocabulary).errors) :
    1 ≤ p.2 ∧ p.1 ∈ tokens (lowerStr text) := by
  have h := mem_counter hp
  refine ⟨?_, (mem_nonCompliantWords.mp h.1).1⟩
  rw [h.2]
  exact List.one_le_count_iff.mpr h.1

/-- With no vocabulary, no tagger hits and text `"Hoy hoy"`, the errors
mapping holds `hoy` with count 2. -/
theorem validate_hoy_errors :
    ("hoy".data, 2) ∈ (validate_text (fun _ => []) "Hoy hoy".data []).errors := by
  have h : tokens (lowerStr "Hoy hoy".data) = ["hoy".data, "hoy".data] := by
    simp [tokens, List.takeWhile, List.dropWhile, isWordChar, lowerStr, Char.toLower]
  simp only [validate_text, nonCompliantWords, h]
  decide

/-- Witness for C9 at the concrete run of `validate_hoy_errors`. -/
theorem validate_text_errors_invariant_witness :
    1 ≤ (("hoy".data, 2) : List Char × Nat).2 ∧
      ("hoy".data, 2).1 ∈ tokens (lowerStr "Hoy hoy".data) :=
  validate_text_errors_invariant (fun _ => []) "Hoy hoy".data [] ("hoy".data, 2)
    validate_hoy_errors

/-- C3: over a vocabulary whose entries are lowercase (the data model's
invariant, established by vocabulary loading), a word some case variant of
which is a vocabulary entry, and which occurs in the text as a whole
regex token in some case, is never a key of the errors mapping. -/
theorem validate_text_vocab_safe
    (nlp : List Char → List TaggedToken) (text : List Char) (vocabulary : List (List Char))
    (w : List Char)
    (hV : ∀ v ∈ vocabulary, lowerStr v = v)
    (hvw : ∃ v ∈ vocabulary, lowerStr v = lowerStr w)
    (hT : ∃ t ∈ tokens text, lowerStr t = lowerStr w) :
    w ∉ errorKeys (validate_text nlp text vocabulary) := by
  intro hk
  obtain ⟨htok, hnv, _, _⟩ := mem_errorKeys_iff.mp hk
  have hlw : lowerStr w = w := lowerStr_eq_self_of_mem_tokens htok
  obtain ⟨v, hv, hveq⟩ := hvw
  have : v = w := by rw [← hV v hv, hveq, hlw]
  exact hnv (this ▸ hv)

/-- Witness for C3: `gato` in the vocabulary keeps `Gato` out of the errors. -/
theorem validate_text_vocab_safe_witness :
    "Gato".data ∉ errorKeys (validate_text (fun _ => []) "El Gato".data ["gato".data]) := by
  have h : tokens "El Gato".data = ["El".data, "Gato".data] := by
    simp [tokens, List.takeWhile, List.dropWhile, isWordChar]
  exact validate_text_vocab_safe (fun _ => []) "El Gato".data ["gato".data] "Gato".data
    (by decide) ⟨"gato".data, by decide, by decide⟩
    ⟨"Gato".data, by rw [h]; decide, by decide⟩

/-- The model tagger does satisfy the spec's numeral-classification
property. -/
theorem digitTagger_flags : TaggerFlagsDigitTokens digitTagger := by
  intro text w hw hdig
  have hlw : lowerStr w = w := lowerStr_eq_self_of_mem_tokens hw
  apply List.mem_map.mpr
  refine ⟨⟨w, "X", w.all Char.isDigit⟩, ?_, hlw⟩
  apply List.mem_filter.mpr
  exact ⟨List.mem_map.mpr ⟨w, hw, rfl⟩, List.all_eq_true.mpr hdig⟩

/-- C4: under a tagger that classifies digit sequences as numeral-like (the
spec's description of the external tagger), a purely numeric token of the
text is never a key of the errors mapping. -/
theorem validate_text_numeral_safe
    (nlp : List Char → List TaggedToken) (text : List Char) (vocabulary : List (List Char))
    (w : List Char)
    (hnlp : TaggerFlagsDigitTokens nlp)
    (hw : w ∈ tokens text)
    (hdig : ∀ c ∈ w, c.isDigit = true) :
    w ∉ errorKeys (validate_text nlp text vocabulary) := by
  intro hk
  obtain ⟨htok, _, _, hnum⟩ := mem_errorKeys_iff.mp hk
  exact hnum (hnlp text w htok hdig)

/-- Witness for C4: the token `3` is never reported. -/
theorem validate_text_numeral_safe_witness :
    "3".data ∉ errorKeys (validate_text digitTagger "3 gatos".data ["gatos".data]) := by
  have h : tokens "3 gatos".data = ["3".data, "gatos".data] := by
    simp [tokens, List.takeWhile, List.dropWhile, isWordChar]
  exact validate_text_numeral_safe digitTagger "3 gatos".data ["gatos".data] "3".data
    digitTagger_flags (by rw [h]; decide) (by decide)

/-! ## Facts about the chunk decomposition and the highlighter -/

/-- The chunk decomposition reassembles to the original text. -/
theorem chunksOf_flatten (s : List Char) :
    ((chunksOf s).map Chunk.content).flatten = s := by
  induction s using chunksOf.induct with
  | case1 => simp [chunksOf]
  | case2 c cs h ih =>
      rw [chunksOf, if_pos h, List.map_cons, List.flatten_cons, ih, Chunk.content]
      exact List.takeWhile_append_dropWhile isWordChar (c :: cs)
  | case3 c cs h ih =>
      rw [chunksOf, if_neg h, List.map_cons, List.flatten_cons, ih, Chunk.content]
      rfl

/-- The highlight scan is the chunkwise re-emission, flattened. -/
theorem hlScan_eq_chunks (ewl : List (List Char)) (s : List Char) :
    hlScan ewl s = ((chunksOf s).map fun ch =>
      match ch with
      | Chunk.word w => if ewl.contains (lowerStr w) then spanOpen ++ w ++ spanClose else w
      | Chunk.sep c => [c]).flatten := by
  induction s using chunksOf.induct with
  | case1 => simp [chunksOf, hlScan]
  | case2 c cs h ih =>
      rw [chunksOf, if_pos h, List.map_cons, List.flatten_cons, hlScan, if_pos h, ih]
  | case3 c cs h ih =>
      rw [chunksOf, if_neg h, List.map_cons, List.flatten_cons, hlScan, if_neg h, ih]
      rfl

/-- The highlighter of the source is the spec-side highlighter. -/
theorem format_eq_highlightSpec (text : List Char) (flagged : List (List Char)) :
    format_text_with_highlights text flagged = highlightSpec text flagged := by
  rw [format_text_with_highlights, highlightSpec, hlScan_eq_chunks]
  rfl

/-- C5: the highlighter emits exactly the chunk decomposition of the text,
in order — flagged word tokens wrapped in the markup, every other chunk
verbatim — and that decomposition concatenates back to the text, so the
output differs from the text only by the inserted markup. -/
theorem highlighter_decomposition (text : List Char) (flagged : List (List Char)) :
    format_text_with_highlights text flagged = highlightSpec text flagged
      ∧ ((chunksOf text).map Chunk.content).flatten = text
      ∧ (∀ w, Chunk.word w ∈ chunksOf text →
          renderChunk flagged (Chunk.word w)
            = if lowerStr w ∈ flagged.map lowerStr then spanOpen ++ w ++ spanClose else w)
      ∧ (∀ c, Chunk.sep c ∈ chunksOf text → renderChunk flagged (Chunk.sep c) = [c]) := by
  refine ⟨format_eq_highlightSpec text flagged, chunksOf_flatten text, ?_, fun c _ => rfl⟩
  intro w _
  by_cases h : lowerStr w ∈ flagged.map lowerStr
  · simp [renderChunk, h]
  · simp [renderChunk, h]

/-- C6: highlighting with an empty flagged-word set is the identity. -/
theorem highlight_empty_flagged (text : List Char) :
    format_text_with_highlights text [] = text := by
  rw [format_eq_highlightSpec, highlightSpec]
  have h : ∀ ch ∈ chunksOf text, renderChunk [] ch = Chunk.content ch := by
    intro ch _
    match ch with
    | Chunk.word w => simp [renderChunk, Chunk.content]
    | Chunk.sep c => rfl
  rw [List.map_congr_left h, chunksOf_flatten]

/-- C10: a flagged token is emitted inside the markup in its original
casing: the wrapped occurrence, with the surface form of the token, is a
contiguous substring of the highlighter's output. -/
theorem highlight_preserves_case (text : List Char) (flagged : List (List Char))
    (w : List Char) (hw : Chunk.word w ∈ chunksOf text)
    (hf : lowerStr w ∈ flagged.map lowerStr) :
    spanOpen ++ w ++ spanClose <:+: format_text_with_highlights text flagged := by
  rw [format_eq_highlightSpec, highlightSpec]
  apply List.infix_of_mem_flatten
  apply List.mem_map.mpr
  refine ⟨Chunk.word w, hw, ?_⟩
  simp [renderChunk, hf]

/-- Witness for C10: `Gato`, flagged via lowercase `gato`, is wrapped with
its capital G intact. -/
theorem highlight_preserves_case_witness :
    spanOpen ++ "Gato".data ++ spanClose <:+:
      format_text_with_highlights "El Gato".data ["gato".data] := by
  have h : chunksOf "El Gato".data
      = [Chunk.word "El".data, Chunk.sep ' ', Chunk.word "Gato".data] := by
    simp [chunksOf, List.takeWhile, List.dropWhile, isWordChar]
  exact highlight_preserves_case "El Gato".data ["gato".data] "Gato".data
    (by rw [h]; decide) (by decide)

/-- C8: clicking Validate with an empty vocabulary warns and validates
nothing; with a non-empty vocabulary but text that strips to nothing it
warns and validates nothing; in both cases no validation result is
produced. -/
theorem onValidateClick_guards
    (nlp : List Char → List TaggedToken) (vocabulary : List (List Char))
    (text_input : List Char) :
    (vocabulary = [] → onValidateClick nlp vocabulary text_input = AppAction.warnNoVocab)
      ∧ (vocabulary ≠ [] → pyStrip text_input = [] →
          onValidateClick nlp vocabulary text_input = AppAction.warnNoText)
      ∧ ((vocabulary = [] ∨ pyStrip text_input = []) →
          ∀ r, onValidateClick nlp vocabulary text_input ≠ AppAction.validated r) := by
  refine ⟨?_, ?_, ?_⟩
  · intro h
    subst h
    rfl
  · intro h1 h2
    rw [onValidateClick, if_neg (by simpa [List.isEmpty_iff] using h1),
      if_pos (by simpa [List.isEmpty_iff] using h2)]
  · rintro (h | h) r
    · subst h
      intro hc
      exact absurd hc (by rw [onValidateClick]; simp)
    · rw [onValidateClick]
      by_cases hv : vocabulary.isEmpty
      · rw [if_pos hv]
        intro hc
        exact AppAction.noConfusion hc
      · rw [if_neg hv, if_pos (by simpa [List.isEmpty_iff] using h)]
        intro hc
        exact AppAction.noConfusion hc

end ValidatorApp
